import Mathlib

set_option linter.all false

/-!
Verification of the iterator semantics of kwangchoon/rust-demo-iterators.

The repository implements, over Rust's pull-based `Iterator` interface:
a `Counter` cursor in two variants (i5_custom_iterators.rs), custom
`Map` and `Unique` adapters plus a `FromIterator` cons-list builder
(i6_iterator_adapters.rs), and demonstrations of the standard `fold`
consumer (i2_std_iterators.rs).

We embed each cursor as a state type together with a `next` function of
type `state -> Option item × state` (the model of Rust's
`fn next(&mut self) -> Option<Item>`), and model consumption loops by a
fueled `drain`. Machine integers (`i32`) are modelled as `Int` with an
explicit two's-complement wraparound where overflow matters.
-/

/-- A pull-based cursor backed by a list: the model of `vec.into_iter()`
(the elements still to be produced are the list). -/
def listNext {α : Type} : List α → Option α × List α
  | [] => (none, [])
  | x :: xs => (some x, xs)

/-- Repeatedly pull from a cursor, collecting the yielded values until the
first exhaustion signal or until the fuel runs out; returns the outputs and
the final cursor state. This models a `while let Some(v) = it.next()`
consumption loop (Rust's `collect`). -/
def drain {τ β : Type} (next : τ → Option β × τ) : Nat → τ → List β × τ
  | 0, t => ([], t)
  | n + 1, t =>
    match next t with
    | (some v, t') =>
      let r := drain next n t'
      (v :: r.1, r.2)
    | (none, t') => ([], t')

/-- One pull of the `Map` adapter (i6_iterator_adapters.rs, lines 42-47):
pull the wrapped cursor; on `Some v` apply the closure and yield the result;
on `None` propagate exhaustion. The Rust closure is `FnMut`, so it may
mutate captured state; we model that with an explicit closure-state `φ`
threaded through each invocation. -/
def mapNext {α R φ : Type} (f : φ → α → R × φ) :
    List α × φ → Option R × (List α × φ)
  | (s, fs) =>
    match listNext s with
    | (some v, s') =>
      let r := f fs v
      (some r.1, (s', r.2))
    | (none, s') => (none, (s', fs))

/-- Drain the `Map` adapter built by `fmap` over a list-backed source
(fuel `length + 1` reaches the exhaustion signal). -/
def mapRun {α R φ : Type} (f : φ → α → R × φ) (xs : List α) (s0 : φ) :
    List R × (List α × φ) :=
  drain (mapNext f) (xs.length + 1) (xs, s0)

/-- Specification-side mapping: apply the closure exactly once to each
element, left to right, threading the closure state. -/
def applyOnce {α R φ : Type} (f : φ → α → R × φ) : φ → List α → List R × φ
  | s, [] => ([], s)
  | s, x :: xs =>
    let r := f s x
    let rest := applyOnce f r.2 xs
    (r.1 :: rest.1, rest.2)

/-- One pull of the `Unique` adapter (i6_iterator_adapters.rs, lines
102-113): loop pulling the wrapped cursor, skipping values already in the
seen set; on a fresh value, insert it into the seen set and yield it; if
the wrapped cursor is exhausted first, propagate exhaustion. The `HashSet`
is modelled as a list used as a finite set (`contains` is membership,
`insert` is cons). -/
def uniqueNext {α : Type} [DecidableEq α] :
    List α → List α → Option α × (List α × List α)
  | [], seen => (none, ([], seen))
  | v :: rest, seen =>
    if v ∈ seen then uniqueNext rest seen
    else (some v, (rest, v :: seen))

/-- The `Unique` pull packaged on the adapter state (wrapped cursor, seen set). -/
def uniqueNextP {α : Type} [DecidableEq α] (t : List α × List α) :
    Option α × (List α × List α) :=
  uniqueNext t.1 t.2

/-- Drain the `Unique` adapter built by `unique()` (seen set initially
empty) over a list-backed source. -/
def uniqueRun {α : Type} [DecidableEq α] (xs : List α) : List α :=
  (drain uniqueNextP (xs.length + 1) (xs, [])).1

/-- Direct recursive form of the full `Unique` drain, used to relate the
pull loop to its specification. -/
def uniqDrain {α : Type} [DecidableEq α] : List α → List α → List α
  | [], _ => []
  | v :: rest, seen =>
    if v ∈ seen then uniqDrain rest seen else v :: uniqDrain rest (v :: seen)

/-- Modelled from the spec: the `Flatten` adapter body is left TODO in
i6_iterator_adapters.rs (module iterator_adapter_Flatten, lines 147-183),
so we follow spec section 4.4: keep a current inner sequence; if it has a
next element yield it; if it is exhausted, pull the next inner sequence
from the outer cursor and retry; if the outer cursor is exhausted,
propagate exhaustion. -/
def flattenNext {α : Type} :
    List (List α) → List α → Option α × (List (List α) × List α)
  | outer, x :: cur => (some x, (outer, cur))
  | [], [] => (none, ([], []))
  | inner :: outer, [] => flattenNext outer inner

/-- The `Flatten` pull packaged on the adapter state (outer cursor, current
inner sequence). -/
def flattenNextP {α : Type} (t : List (List α) × List α) :
    Option α × (List (List α) × List α) :=
  flattenNext t.1 t.2

/-- Drain the `Flatten` adapter over a list-backed nested source, starting
with an exhausted current inner sequence. -/
def flattenRun {α : Type} (xss : List (List α)) : List α :=
  (drain flattenNextP (xss.join.length + 1) (xss, [])).1

/-- Modelled from the spec: the `fold` consumer (std `Iterator::fold`,
demonstrated in i2_std_iterators.rs `consumers::folding`, lines 269-296),
per spec section 4.5: pull every element, accumulating
`acc = combine(acc, element)` left to right; return the final accumulator.
Written as a fueled pull loop over an arbitrary cursor. -/
def foldPull {τ α β : Type} (next : τ → Option α × τ) (c : β → α → β) :
    Nat → β → τ → β
  | 0, acc, _ => acc
  | n + 1, acc, t =>
    match next t with
    | (some v, t') => foldPull next c n (c acc v) t'
    | (none, _) => acc

/-- Cons-list from `from_iter_exercise` (i6_iterator_adapters.rs, lines
246-249): `enum List { Cons(i32, Box<List>), Nil }`. Named `RList` to avoid
clashing with the core list type. -/
inductive RList : Type where
  | Cons : Int → RList → RList
  | Nil : RList
deriving DecidableEq

/-- `FromIterator::from_iter` for the cons-list (i6_iterator_adapters.rs,
lines 252-255): fold the pulled elements with `acc = Cons(n, acc)`, seeded
with `Nil`; expressed with the fold-consumer model over a list-backed
cursor. -/
def RList.from_iter (xs : List Int) : RList :=
  foldPull listNext (fun acc n => RList.Cons n acc) (xs.length + 1) RList.Nil xs

/-- Specification-side conversion of a Lean list to the cons-list, front
element first. -/
def listToCons : List Int → RList
  | [] => RList.Nil
  | x :: xs => RList.Cons x (listToCons xs)

/-- Append on the cons-list (replaces the terminal `Nil` of the first list
with the second list); proof-side helper. -/
def RList.app : RList → RList → RList
  | RList.Nil, r => r
  | RList.Cons x l, r => RList.Cons x (RList.app l r)

/-- Modelled from the spec: conversion of a dynamic vector into a
fixed-size array of expected length `n` (std `try_into` as used in
`from_iter_exercise`, i6_iterator_adapters.rs line 272), per spec section
7: it succeeds exactly when the source produced the expected count, and
otherwise the failure (carrying the whole input, neither truncated nor
padded) is reported to the caller. -/
def try_into (n : Nat) (xs : List Int) : Except (List Int) (List Int) :=
  if xs.length = n then Except.ok xs else Except.error xs

/-- Two's-complement wraparound of an integer into the signed 32-bit
range, the model of Rust i32 arithmetic in release mode. -/
def wrap32 (z : Int) : Int := (z + 2147483648) % 4294967296 - 2147483648

/-- Counter cursor (i5_custom_iterators.rs, module Iterator_for_Counter,
lines 4-8): a bound `max` and the mutable `count` tracking iteration
state. -/
structure Counter where
  max : Int
  count : Int
deriving DecidableEq

/-- Counter::new (i5_custom_iterators.rs, lines 10-14): the count starts
at -1. -/
def Counter.new (max : Int) : Counter := { max := max, count := -1 }

/-- One pull of Counter (i5_custom_iterators.rs, lines 23-31): increment
`count` (i32 arithmetic), yield it while strictly below `max`, otherwise
signal exhaustion. -/
def Counter.next (c : Counter) : Option Int × Counter :=
  let count := wrap32 (c.count + 1)
  if count < c.max then (some count, { max := c.max, count := count })
  else (none, { max := c.max, count := count })

/-- Iterate pulls of the Counter, keeping only the cursor state (the
yielded values are discarded). -/
def stepN : Nat → Counter → Counter
  | 0, c => c
  | k + 1, c => stepN k (Counter.next c).2

/-- IntoIterator-based Counter (i5_custom_iterators.rs, module
IntoIterator_for_Counter, lines 45-54): holds only the bound. -/
structure CounterB where
  max : Int

/-- Counter::new of the IntoIterator variant (lines 50-54). -/
def CounterB.new (max : Int) : CounterB := { max := max }

/-- The iterator state produced by into_iter (i5_custom_iterators.rs,
lines 71-74). -/
structure IntoIterX where
  count : Int
  max : Int
deriving DecidableEq

/-- into_iter (i5_custom_iterators.rs, lines 63-68): the count starts
at 0. -/
def CounterB.into_iter (c : CounterB) : IntoIterX := { count := 0, max := c.max }

/-- One pull of IntoIterX (i5_custom_iterators.rs, lines 79-87): same body
as Counter::next. -/
def IntoIterX.next (it : IntoIterX) : Option Int × IntoIterX :=
  let count := wrap32 (it.count + 1)
  if count < it.max then (some count, { count := count, max := it.max })
  else (none, { count := count, max := it.max })

/-- Values yielded by draining the Iterator-based Counter to exhaustion. -/
def counterYield (max : Int) : List Int :=
  (drain Counter.next (max.toNat + 1) (Counter.new max)).1

/-- Values yielded by draining the iterator of the IntoIterator-based
Counter to exhaustion. -/
def counterBYield (max : Int) : List Int :=
  (drain IntoIterX.next max.toNat (CounterB.new max).into_iter).1

/-- Specification-side integer interval: the list c, c+1, ..., c+n-1. -/
def intRange (c : Int) : Nat → List Int
  | 0 => []
  | n + 1 => c :: intRange (c + 1) n

/-- Adapter chains built from the mapping and uniqueness adapters over a
list-backed integer source, for the determinism property of spec
section 5. -/
inductive Chain : Type where
  | base : Chain
  | cmap : (Int → Int) → Chain → Chain
  | cuniq : Chain → Chain

/-- The state of an adapter chain: the source list at the bottom, plus a
seen set for each uniqueness adapter layer. -/
def CState : Chain → Type
  | Chain.base => List Int
  | Chain.cmap _ c => CState c
  | Chain.cuniq c => CState c × List Int

/-- One pull of an adapter chain, as a small-step relation; each
constructor mirrors one control path of the pull code: base_some and
base_none the list-backed source, map_some and map_none the Map body
(i6_iterator_adapters.rs, lines 42-47), uniq_new, uniq_skip and uniq_none
the Unique loop (lines 102-113). -/
inductive CStep : (c : Chain) → CState c → Option Int × CState c → Prop where
  | base_some (x : Int) (xs : List Int) :
      CStep Chain.base (x :: xs) (some x, xs)
  | base_none : CStep Chain.base [] (none, [])
  | map_some {c : Chain} {f : Int → Int} {s s' : CState c} {v : Int} :
      CStep c s (some v, s') → CStep (Chain.cmap f c) s (some (f v), s')
  | map_none {c : Chain} {f : Int → Int} {s s' : CState c} :
      CStep c s (none, s') → CStep (Chain.cmap f c) s (none, s')
  | uniq_new {c : Chain} {s s' : CState c} {v : Int} {seen : List Int} :
      CStep c s (some v, s') → v ∉ seen →
      CStep (Chain.cuniq c) (s, seen) (some v, (s', v :: seen))
  | uniq_skip {c : Chain} {s s' : CState c} {v : Int} {seen : List Int}
      {out : Option Int × CState (Chain.cuniq c)} :
      CStep c s (some v, s') → v ∈ seen →
      CStep (Chain.cuniq c) (s', seen) out →
      CStep (Chain.cuniq c) (s, seen) out
  | uniq_none {c : Chain} {s s' : CState c} {seen : List Int} :
      CStep c s (none, s') → CStep (Chain.cuniq c) (s, seen) (none, (s', seen))

/-- A complete run of an adapter chain: the values pulled, in order, until
the first exhaustion signal. -/
inductive CRun : (c : Chain) → CState c → List Int → Prop where
  | stop {c : Chain} {s s' : CState c} :
      CStep c s (none, s') → CRun c s []
  | step {c : Chain} {s s' : CState c} {v : Int} {vs : List Int} :
      CStep c s (some v, s') → CRun c s' vs → CRun c s (v :: vs)

/- Theorems start here. -/

/-- Unfolding rule for `drain` when the pull yields a value. -/
theorem drain_succ_some {τ β : Type} (next : τ → Option β × τ) (n : Nat)
    {t t' : τ} {v : β} (h : next t = (some v, t')) :
    drain next (n + 1) t =
      ((drain next n t').1.cons v, (drain next n t').2) := by
  simp only [drain, h]

/-- Unfolding rule for `drain` when the pull signals exhaustion. -/
theorem drain_succ_none {τ β : Type} (next : τ → Option β × τ) (n : Nat)
    {t t' : τ} (h : next t = (none, t')) :
    drain next (n + 1) t = ([], t') := by
  simp only [drain, h]

/-- Two states on which `next` agrees are drained identically (with at
least one unit of fuel). -/
theorem drain_congr_step {τ β : Type} (next : τ → Option β × τ) (n : Nat)
    {t₁ t₂ : τ} (h : next t₁ = next t₂) :
    drain next (n + 1) t₁ = drain next (n + 1) t₂ := by
  simp only [drain, h]

/-- The fueled fold over a list-backed cursor computes the standard left
fold, given fuel `length + 1`. -/
theorem foldPull_listNext_eq_foldl {α β : Type} (c : β → α → β) :
    ∀ (xs : List α) (acc : β),
      foldPull listNext c (xs.length + 1) acc xs = xs.foldl c acc := by
  intro xs
  induction xs with
  | nil => intro acc; rfl
  | cons x xs ih =>
    intro acc
    show foldPull listNext c (xs.length + 1 + 1) acc (x :: xs) = _
    unfold foldPull
    simp only [listNext]
    rw [ih]
    rfl

/-- C4: for every finite sequence, seed and binary combiner, the fold
consumer (pull every element, accumulating `acc = combine(acc, element)`
left to right) equals the standard left-fold; the empty sequence returns
the seed unchanged; summing `[1,2,3,4,5,6]` from seed 0 gives 21 as in the
repository's `folding` test. -/
theorem C4_fold_is_left_fold {α β : Type} (c : β → α → β) (s0 : β)
    (xs : List α) :
    foldPull listNext c (xs.length + 1) s0 xs = xs.foldl c s0 ∧
    foldPull listNext c 1 s0 ([] : List α) = s0 ∧
    foldPull listNext (fun (acc : Int) i => acc + i) 7 0 [1, 2, 3, 4, 5, 6] = 21 := by
  refine ⟨foldPull_listNext_eq_foldl c xs s0, rfl, by decide⟩

/-- Appending `Nil` on the right is the identity of `RList.app`. -/
theorem RList.app_nil (l : RList) : RList.app l RList.Nil = l := by
  induction l with
  | Nil => rfl
  | Cons x l ih => simp [RList.app, ih]

/-- `listToCons` turns list append into `RList.app`. -/
theorem listToCons_append (a b : List Int) :
    listToCons (a ++ b) = RList.app (listToCons a) (listToCons b) := by
  induction a with
  | nil => rfl
  | cons x a ih => simp [listToCons, RList.app, ih]

/-- `RList.app` is associative. -/
theorem RList.app_assoc (p q r : RList) :
    RList.app (RList.app p q) r = RList.app p (RList.app q r) := by
  induction p with
  | Nil => rfl
  | Cons x p ih => simp [RList.app, ih]

/-- Left-folding the flipped `Cons` builds the reversed cons-list, onto an
arbitrary accumulator. -/
theorem foldl_cons_flip (xs : List Int) :
    ∀ acc : RList,
      xs.foldl (fun a n => RList.Cons n a) acc =
        RList.app (listToCons xs.reverse) acc := by
  induction xs with
  | nil => intro acc; rfl
  | cons x xs ih =>
    intro acc
    rw [List.foldl_cons, ih (RList.Cons x acc), List.reverse_cons,
      listToCons_append, RList.app_assoc]
    rfl

/-- C10: `List::from_iter` over `[x1, ..., xn]` builds
`Cons(xn, ... Cons(x1, Nil))`, the reversal of pull order; the empty
sequence gives `Nil`; in particular `[2,4,6]` gives
`Cons(6, Cons(4, Cons(2, Nil)))` as in the source comment. -/
theorem C10_from_iter_reverses (xs : List Int) :
    RList.from_iter xs = listToCons xs.reverse ∧
    RList.from_iter [] = RList.Nil ∧
    RList.from_iter [2, 4, 6] =
      RList.Cons 6 (RList.Cons 4 (RList.Cons 2 RList.Nil)) := by
  refine ⟨?_, rfl, by decide⟩
  rw [RList.from_iter, foldPull_listNext_eq_foldl, foldl_cons_flip,
    RList.app_nil]

/-- Draining the `Map` adapter produces exactly the once-per-element
left-to-right application of the closure, consuming the whole source, with
matching final closure state. -/
theorem mapRun_eq_applyOnce {α R φ : Type} (f : φ → α → R × φ) :
    ∀ (xs : List α) (s0 : φ),
      mapRun f xs s0 = ((applyOnce f s0 xs).1, ([], (applyOnce f s0 xs).2)) := by
  intro xs
  induction xs with
  | nil => intro s0; rfl
  | cons x xs ih =>
    intro s0
    have h : mapNext f (x :: xs, s0) = (some (f s0 x).1, (xs, (f s0 x).2)) := rfl
    show drain (mapNext f) (xs.length + 1 + 1) (x :: xs, s0) = _
    rw [drain_succ_some _ _ h]
    have := ih (f s0 x).2
    rw [mapRun] at this
    rw [this]
    simp [applyOnce]

/-- The once-per-element application yields as many results as elements. -/
theorem applyOnce_length {α R φ : Type} (f : φ → α → R × φ) :
    ∀ (xs : List α) (s : φ), (applyOnce f s xs).1.length = xs.length := by
  intro xs
  induction xs with
  | nil => intro s; rfl
  | cons x xs ih => intro s; simp [applyOnce, ih]

/-- For a pure closure, the once-per-element application is `List.map`. -/
theorem applyOnce_pure {α R : Type} (g : α → R) :
    ∀ (xs : List α) (u : Unit),
      (applyOnce (fun (u : Unit) x => (g x, u)) u xs).1 = xs.map g := by
  intro xs
  induction xs with
  | nil => intro u; rfl
  | cons x xs ih => intro u; simp [applyOnce, ih]

/-- A closure that logs its argument is invoked exactly once per element,
in source order: the final log is the source list itself. -/
theorem applyOnce_log {α R : Type} (g : α → R) :
    ∀ (xs : List α) (l0 : List α),
      (applyOnce (fun (l : List α) x => (g x, l ++ [x])) l0 xs).2 = l0 ++ xs := by
  intro xs
  induction xs with
  | nil => intro l0; simp [applyOnce]
  | cons x xs ih => intro l0; simp [applyOnce, ih]

/-- C2: draining the `Map` adapter yields exactly `len(S)` results, the
i-th being the closure applied to the i-th source element in source order
with the closure state threaded once per produced element and never more
(a logging closure records exactly the source list, in pull order); for a
pure doubling closure, `[1,2,3,4,5]` maps to `[2,4,6,8,10]` as in the
repository's test. -/
theorem C2_map_adapter {α R φ : Type} (f : φ → α → R × φ) (g : α → R)
    (xs : List α) (s0 : φ) :
    mapRun f xs s0 = ((applyOnce f s0 xs).1, ([], (applyOnce f s0 xs).2)) ∧
    (mapRun f xs s0).1.length = xs.length ∧
    (mapRun (fun (u : Unit) x => (g x, u)) xs ()).1 = xs.map g ∧
    (mapRun (fun (l : List α) x => (g x, l ++ [x])) xs []).2.2 = xs ∧
    (mapRun (fun (u : Unit) (x : Int) => (x * 2, u)) [1, 2, 3, 4, 5] ()).1 =
      [2, 4, 6, 8, 10] := by
  refine ⟨mapRun_eq_applyOnce f xs s0, ?_, ?_, ?_, by decide⟩
  · rw [mapRun_eq_applyOnce]
    exact applyOnce_length f xs s0
  · rw [mapRun_eq_applyOnce]
    exact applyOnce_pure g xs ()
  · rw [mapRun_eq_applyOnce]
    exact applyOnce_log g xs []

/-- C5: constructing a fixed-size container of expected count `n` from a
finite sequence succeeds exactly when the sequence has length `n`, and
otherwise fails with the whole input reported back to the caller (no
truncation, no padding); building a 3-element fixed container from
`[1,2,3]` mapped by doubling yields `[2,4,6]`, while a 2-element fixed
container from the same source fails. -/
theorem C5_fixed_size_from_iter (n : Nat) (xs : List Int) :
    (try_into n xs = Except.ok xs ↔ xs.length = n) ∧
    (try_into n xs = Except.error xs ↔ xs.length ≠ n) ∧
    try_into 3 (mapRun (fun (u : Unit) x => (x * 2, u)) [1, 2, 3] ()).1 =
      Except.ok [2, 4, 6] ∧
    try_into 2 (mapRun (fun (u : Unit) x => (x * 2, u)) [1, 2, 3] ()).1 =
      Except.error [2, 4, 6] := by
  refine ⟨?_, ?_, rfl, rfl⟩
  · rw [try_into]
    split <;> simp_all
  · rw [try_into]
    split <;> simp_all

/-- Draining the flattening adapter from any state yields the pending
current inner sequence followed by the concatenation of the remaining
inner sequences, given enough fuel. -/
theorem flat_drain {α : Type} :
    ∀ (xss : List (List α)) (cur : List α) (fuel : Nat),
      (cur ++ xss.join).length + 1 ≤ fuel →
      (drain flattenNextP fuel (xss, cur)).1 = cur ++ xss.join := by
  intro xss
  induction xss with
  | nil =>
    intro cur
    induction cur with
    | nil =>
      intro fuel hf
      match fuel, hf with
      | f + 1, _ =>
        have h : flattenNextP (([] : List (List α)), ([] : List α)) =
            (none, ([], [])) := rfl
        rw [drain_succ_none _ _ h]
        simp
    | cons x c ihc =>
      intro fuel hf
      match fuel, hf with
      | f + 1, hf =>
        have h : flattenNextP (([] : List (List α)), x :: c) =
            (some x, ([], c)) := rfl
        rw [drain_succ_some _ _ h]
        have := ihc f (by simp at hf ⊢; omega)
        simp_all
  | cons inner rest ihx =>
    intro cur
    induction cur with
    | nil =>
      intro fuel hf
      match fuel, hf with
      | f + 1, hf =>
        have hstep : flattenNextP ((inner :: rest), ([] : List α)) =
            flattenNextP (rest, inner) := rfl
        rw [drain_congr_step _ _ hstep]
        have := ihx inner (f + 1) (by simp at hf ⊢; omega)
        simpa using this
    | cons x c ihc =>
      intro fuel hf
      match fuel, hf with
      | f + 1, hf =>
        have h : flattenNextP ((inner :: rest), x :: c) =
            (some x, (inner :: rest, c)) := rfl
        rw [drain_succ_some _ _ h]
        have := ihc f (by simp at hf ⊢; omega)
        simp_all

/-- C3: for every nested finite sequence, draining the flattening adapter
yields exactly the concatenation of the inner sequences in order, empty
inner sequences contributing nothing and not ending iteration early; in
particular `[[1,2],[],[3,4]]` flattens to `[1,2,3,4]`. -/
theorem C3_flatten_is_concat {α : Type} (xss : List (List α)) :
    flattenRun xss = xss.join ∧
    flattenRun [[1, 2], [], [3, 4]] = ([1, 2, 3, 4] : List Int) := by
  refine ⟨?_, rfl⟩
  have := flat_drain xss [] (xss.join.length + 1) (by simp)
  simpa [flattenRun] using this

/-- The fueled drain of the `Unique` pull loop computes the direct
recursive uniqueness filter, for any starting seen set. -/
theorem uniq_drain_eq {α : Type} [DecidableEq α] :
    ∀ (xs seen : List α) (fuel : Nat), xs.length + 1 ≤ fuel →
      (drain uniqueNextP fuel (xs, seen)).1 = uniqDrain xs seen := by
  intro xs
  induction xs with
  | nil =>
    intro seen fuel hf
    match fuel, hf with
    | f + 1, _ =>
      have h : uniqueNextP (([] : List α), seen) = (none, ([], seen)) := rfl
      rw [drain_succ_none _ _ h]
      rfl
  | cons v rest ih =>
    intro seen fuel hf
    match fuel, hf with
    | f + 1, hf =>
      by_cases hv : v ∈ seen
      · have hstep : uniqueNextP (v :: rest, seen) = uniqueNextP (rest, seen) := by
          simp [uniqueNextP, uniqueNext, hv]
        rw [drain_congr_step _ _ hstep]
        rw [ih seen (f + 1) (by simp at hf ⊢; omega)]
        simp [uniqDrain, hv]
      · have h : uniqueNextP (v :: rest, seen) = (some v, (rest, v :: seen)) := by
          simp [uniqueNextP, uniqueNext, hv]
        rw [drain_succ_some _ _ h]
        show v :: (drain uniqueNextP f (rest, v :: seen)).1 = _
        rw [ih (v :: seen) f (by simp at hf ⊢; omega)]
        simp [uniqDrain, hv]

/-- Membership in the uniqueness filter: exactly the input values not
already seen. -/
theorem uniqDrain_mem {α : Type} [DecidableEq α] :
    ∀ (xs seen : List α) (a : α),
      a ∈ uniqDrain xs seen ↔ a ∈ xs ∧ a ∉ seen := by
  intro xs
  induction xs with
  | nil => intro seen a; simp [uniqDrain]
  | cons v rest ih =>
    intro seen a
    by_cases hv : v ∈ seen
    · simp only [uniqDrain, if_pos hv, ih]
      constructor
      · rintro ⟨ha, hs⟩
        exact ⟨List.mem_cons_of_mem _ ha, hs⟩
      · rintro ⟨ha, hs⟩
        rcases List.mem_cons.1 ha with rfl | ha
        · exact absurd hv hs
        · exact ⟨ha, hs⟩
    · simp only [uniqDrain, if_neg hv, List.mem_cons, ih]
      constructor
      · rintro (rfl | ⟨ha, hs⟩)
        · exact ⟨Or.inl rfl, hv⟩
        · refine ⟨Or.inr ha, fun hc => hs (by simp [hc])⟩
      · rintro ⟨rfl | ha, hs⟩
        · exact Or.inl rfl
        · by_cases hav : a = v
          · exact Or.inl hav
          · exact Or.inr ⟨ha, by simp [hav, hs]⟩

/-- The uniqueness filter never repeats a value. -/
theorem uniqDrain_nodup {α : Type} [DecidableEq α] :
    ∀ (xs seen : List α), (uniqDrain xs seen).Nodup := by
  intro xs
  induction xs with
  | nil => intro seen; simp [uniqDrain]
  | cons v rest ih =>
    intro seen
    by_cases hv : v ∈ seen
    · simpa [uniqDrain, hv] using ih seen
    · rw [uniqDrain, if_neg hv]
      refine List.nodup_cons.2 ⟨?_, ih (v :: seen)⟩
      rw [uniqDrain_mem]
      rintro ⟨-, hs⟩
      exact hs (List.mem_cons_self _ _)

/-- The uniqueness filter is a subsequence of its input (values keep their
relative order). -/
theorem uniqDrain_sublist {α : Type} [DecidableEq α] :
    ∀ (xs seen : List α), (uniqDrain xs seen).Sublist xs := by
  intro xs
  induction xs with
  | nil => intro seen; simp [uniqDrain]
  | cons v rest ih =>
    intro seen
    by_cases hv : v ∈ seen
    · rw [uniqDrain, if_pos hv]
      exact List.Sublist.cons v (ih seen)
    · rw [uniqDrain, if_neg hv]
      exact List.Sublist.cons₂ v (ih (v :: seen))

/-- The uniqueness filter lists values in order of their first index in
the input. -/
theorem uniqDrain_pairwise {α : Type} [DecidableEq α] :
    ∀ (xs seen : List α),
      List.Pairwise (fun a b => xs.indexOf a < xs.indexOf b)
        (uniqDrain xs seen) := by
  intro xs
  induction xs with
  | nil => intro seen; simp [uniqDrain]
  | cons v rest ih =>
    intro seen
    by_cases hv : v ∈ seen
    · rw [uniqDrain, if_pos hv]
      refine List.Pairwise.imp_of_mem ?_ (ih seen)
      intro a b ha hb hab
      have ha' : a ≠ v := by
        rcases (uniqDrain_mem rest seen a).1 ha with ⟨-, hs⟩
        intro h
        exact hs (h ▸ hv)
      have hb' : b ≠ v := by
        rcases (uniqDrain_mem rest seen b).1 hb with ⟨-, hs⟩
        intro h
        exact hs (h ▸ hv)
      rw [List.indexOf_cons_ne _ (Ne.symm ha'), List.indexOf_cons_ne _ (Ne.symm hb')]
      omega
    · rw [uniqDrain, if_neg hv]
      refine List.pairwise_cons.2 ⟨?_, ?_⟩
      · intro b hb
        have hb' : b ≠ v := by
          rcases (uniqDrain_mem rest (v :: seen) b).1 hb with ⟨-, hs⟩
          intro h
          exact hs (h ▸ List.mem_cons_self v seen)
        rw [List.indexOf_cons_self, List.indexOf_cons_ne _ (Ne.symm hb')]
        omega
      · refine List.Pairwise.imp_of_mem ?_ (ih (v :: seen))
        intro a b ha hb hab
        have ha' : a ≠ v := by
          rcases (uniqDrain_mem rest (v :: seen) a).1 ha with ⟨-, hs⟩
          intro h
          exact hs (h ▸ List.mem_cons_self v seen)
        have hb' : b ≠ v := by
          rcases (uniqDrain_mem rest (v :: seen) b).1 hb with ⟨-, hs⟩
          intro h
          exact hs (h ▸ List.mem_cons_self v seen)
        rw [List.indexOf_cons_ne _ (Ne.symm ha'), List.indexOf_cons_ne _ (Ne.symm hb')]
        omega

/-- C1: pulling the `Unique` adapter built by `unique()` to exhaustion
yields each distinct input value exactly once (no duplicates, and every
input value appears), in order of first appearance (outputs keep input
order and are sorted by first index in the input), with output length at
most input length; `["a","b","a","cc","cc","d"]` yields
`["a","b","cc","d"]` as in the repository's test. -/
theorem C1_unique_first_occurrences {α : Type} [DecidableEq α] (xs : List α) :
    (uniqueRun xs).Nodup ∧
    (∀ a, a ∈ uniqueRun xs ↔ a ∈ xs) ∧
    (uniqueRun xs).Sublist xs ∧
    List.Pairwise (fun a b => xs.indexOf a < xs.indexOf b) (uniqueRun xs) ∧
    (uniqueRun xs).length ≤ xs.length ∧
    uniqueRun ["a", "b", "a", "cc", "cc", "d"] = ["a", "b", "cc", "d"] := by
  have he : uniqueRun xs = uniqDrain xs [] :=
    uniq_drain_eq xs [] (xs.length + 1) (Nat.le_refl _)
  refine ⟨?_, ?_, ?_, ?_, ?_, by decide⟩
  · rw [he]; exact uniqDrain_nodup xs []
  · intro a
    rw [he, uniqDrain_mem]
    simp
  · rw [he]; exact uniqDrain_sublist xs []
  · rw [he]; exact uniqDrain_pairwise xs []
  · rw [he]
    exact (uniqDrain_sublist xs []).length_le

/-- A `Unique` pull that yields a value inserts exactly that value into
the seen set, and the value was not previously seen. -/
theorem uniq_some_seen {α : Type} [DecidableEq α] :
    ∀ (xs seen : List α) (v : α) (rest s' : List α),
      uniqueNext xs seen = (some v, (rest, s')) →
      s' = v :: seen ∧ v ∉ seen := by
  intro xs
  induction xs with
  | nil =>
    intro seen v rest s' h
    simp [uniqueNext] at h
  | cons w ws ih =>
    intro seen v rest s' h
    by_cases hw : w ∈ seen
    · rw [uniqueNext, if_pos hw] at h
      exact ih seen v rest s' h
    · rw [uniqueNext, if_neg hw] at h
      obtain ⟨h1, h2, h3⟩ : some w = some v ∧ ws = rest ∧ w :: seen = s' := by
        simpa [Prod.ext_iff] using h
      obtain rfl : w = v := by simpa using h1
      exact ⟨h3.symm, hw⟩

/-- A `Unique` pull that signals exhaustion leaves the seen set unchanged
(no pull ever removes an element). -/
theorem uniq_none_seen {α : Type} [DecidableEq α] :
    ∀ (xs seen : List α) (rest s' : List α),
      uniqueNext xs seen = (none, (rest, s')) → s' = seen := by
  intro xs
  induction xs with
  | nil =>
    intro seen rest s' h
    obtain ⟨-, h2⟩ : ([] : List α) = rest ∧ seen = s' := by
      simpa [uniqueNext, Prod.ext_iff] using h
    exact h2.symm
  | cons w ws ih =>
    intro seen rest s' h
    by_cases hw : w ∈ seen
    · rw [uniqueNext, if_pos hw] at h
      exact ih seen rest s' h
    · rw [uniqueNext, if_neg hw] at h
      simp [Prod.ext_iff] at h

/-- After the `Unique` adapter signals exhaustion its state is a fixed
point: every further pull signals exhaustion from the same state. -/
theorem uniq_none_fix {α : Type} [DecidableEq α] :
    ∀ (t t' : List α × List α),
      uniqueNextP t = (none, t') → uniqueNextP t' = (none, t') := by
  intro t
  rcases t with ⟨xs, seen⟩
  induction xs with
  | nil =>
    intro t' h
    have : ((none : Option α), (([] : List α), seen)) = (none, t') := h
    obtain rfl : t' = ([], seen) := by
      simpa [Prod.ext_iff, eq_comm] using this
    rfl
  | cons w ws ih =>
    intro t' h
    by_cases hw : w ∈ seen
    · have h' : uniqueNextP ((ws, seen) : List α × List α) = (none, t') := by
        simpa [uniqueNextP, uniqueNext, hw] using h
      exact ih t' h'
    · simp [uniqueNextP, uniqueNext, hw, Prod.ext_iff] at h

/-- Draining from a fixed point of the pull function yields nothing and
stays at the fixed point. -/
theorem drain_of_fix {τ β : Type} (next : τ → Option β × τ) {t' : τ}
    (h : next t' = (none, t')) :
    ∀ b, drain next b t' = ([], t') := by
  intro b
  cases b with
  | zero => rfl
  | succ b => exact drain_succ_none _ _ h

/-- Splitting a drain at an intermediate pull count, when exhaustion
states are fixed points of the pull function. -/
theorem drain_add_absorb {τ β : Type} (next : τ → Option β × τ)
    (habs : ∀ t t', next t = (none, t') → next t' = (none, t')) :
    ∀ (a b : Nat) (t : τ),
      drain next (a + b) t =
        ((drain next a t).1 ++ (drain next b (drain next a t).2).1,
          (drain next b (drain next a t).2).2) := by
  intro a
  induction a with
  | zero =>
    intro b t
    simp [drain]
  | succ a ih =>
    intro b t
    have hn : a + 1 + b = (a + b) + 1 := by omega
    rcases h : next t with ⟨o, t'⟩
    cases o with
    | some v =>
      rw [hn, drain_succ_some _ _ h, drain_succ_some _ _ h, ih b t']
      simp
    | none =>
      rw [hn, drain_succ_none _ _ h, drain_succ_none _ _ h,
        drain_of_fix _ (habs t t' h) b]
      simp

/-- The seen set only grows: the starting seen set is contained in the
seen set after any number of pulls. -/
theorem seen_initial_sub {α : Type} [DecidableEq α] :
    ∀ (k : Nat) (t : List α × List α),
      t.2 ⊆ (drain uniqueNextP k t).2.2 := by
  intro k
  induction k with
  | zero => intro t; exact fun a ha => ha
  | succ k ih =>
    intro t
    rcases h : uniqueNextP t with ⟨o, t'⟩
    cases o with
    | some v =>
      rcases t' with ⟨rest, s'⟩
      have hs := uniq_some_seen t.1 t.2 v rest s' (by
        rw [← h]; rfl)
      rw [drain_succ_some _ _ h]
      intro a ha
      refine ih (rest, s') ?_
      show a ∈ s'
      rw [hs.1]
      exact List.mem_cons_of_mem _ ha
    | none =>
      rcases t' with ⟨rest, s'⟩
      have hs := uniq_none_seen t.1 t.2 rest s' (by rw [← h]; rfl)
      rw [drain_succ_none _ _ h]
      intro a ha
      show a ∈ s'
      rw [hs]
      exact ha

/-- After any number of pulls, the seen set holds exactly the values
produced so far together with the initial seen set. -/
theorem seen_eq_produced {α : Type} [DecidableEq α] :
    ∀ (k : Nat) (xs seen : List α) (a : α),
      a ∈ (drain uniqueNextP k (xs, seen)).2.2 ↔
        a ∈ (drain uniqueNextP k (xs, seen)).1 ∨ a ∈ seen := by
  intro k
  induction k with
  | zero => intro xs seen a; simp [drain]
  | succ k ih =>
    intro xs seen a
    rcases h : uniqueNextP ((xs, seen) : List α × List α) with ⟨o, t'⟩
    rcases t' with ⟨rest, s'⟩
    cases o with
    | some v =>
      have hs := uniq_some_seen xs seen v rest s' h
      rw [drain_succ_some _ _ h]
      show a ∈ (drain uniqueNextP k (rest, s')).2.2 ↔
        a ∈ v :: (drain uniqueNextP k (rest, s')).1 ∨ a ∈ seen
      rw [ih rest s' a, hs.1]
      simp [List.mem_cons]
      tauto
    | none =>
      have hs := uniq_none_seen xs seen rest s' h
      rw [drain_succ_none _ _ h]
      simp [hs]

/-- C7: for the `Unique` adapter built by `unique()`, after every pull the
seen set equals exactly the set of values produced so far; a pull that
yields a value inserts precisely that (previously unseen) value, a pull
that signals exhaustion changes nothing, and the seen set grows
monotonically over the adapter's lifetime. -/
theorem C7_seen_set_invariant {α : Type} [DecidableEq α] (xs : List α)
    (k : Nat) :
    (∀ a, a ∈ (drain uniqueNextP k (xs, ([] : List α))).2.2 ↔
        a ∈ (drain uniqueNextP k (xs, [])).1) ∧
    (∀ (t : List α × List α) (v : α) (t' : List α × List α),
        uniqueNextP t = (some v, t') → t'.2 = v :: t.2 ∧ v ∉ t.2) ∧
    (∀ (t t' : List α × List α),
        uniqueNextP t = (none, t') → t'.2 = t.2) ∧
    (∀ j, j ≤ k →
        (drain uniqueNextP j (xs, ([] : List α))).2.2 ⊆
          (drain uniqueNextP k (xs, [])).2.2) := by
  refine ⟨?_, ?_, ?_, ?_⟩
  · intro a
    rw [seen_eq_produced]
    simp
  · intro t v t' h
    rcases t with ⟨txs, tseen⟩
    rcases t' with ⟨rest, s'⟩
    exact uniq_some_seen txs tseen v rest s' h
  · intro t t' h
    rcases t with ⟨txs, tseen⟩
    rcases t' with ⟨rest, s'⟩
    exact uniq_none_seen txs tseen rest s' h
  · intro j hj
    obtain ⟨d, rfl⟩ := Nat.exists_eq_add_of_le hj
    rw [drain_add_absorb uniqueNextP uniq_none_fix j d]
    exact seen_initial_sub d _

/-- Witness for C7 at a concrete pull: from state `([1,2], [])` the pull
yields `1`, inserting exactly `1` into the empty seen set. -/
theorem C7_seen_set_invariant_witness :
    (([2], [1]) : List Int × List Int).2 = 1 :: (([] : List Int)) ∧
      (1 : Int) ∉ ([] : List Int) :=
  (C7_seen_set_invariant [1, 1, 2] 2).2.1 ([1, 2], []) 1 ([2], [1]) (by decide)

/-- Wraparound is the identity on integers already inside the signed
32-bit range. -/
theorem wrap32_id (z : Int) (h1 : -2147483648 ≤ z) (h2 : z ≤ 2147483647) :
    wrap32 z = z := by
  unfold wrap32
  omega

/-- Every pull advances the Counter state to the incremented (wrapped)
count, whether or not a value is yielded. -/
theorem counter_next_state (c : Counter) :
    (Counter.next c).2 = { max := c.max, count := wrap32 (c.count + 1) } := by
  simp only [Counter.next]
  split <;> rfl

/-- Pulling k times from an in-range Counter state adds k to the count. -/
theorem stepN_eq :
    ∀ (k : Nat) (m c : Int), -2147483648 ≤ c → c + k ≤ 2147483647 →
      stepN k { max := m, count := c } = { max := m, count := c + k } := by
  intro k
  induction k with
  | zero => intro m c h1 h2; simp [stepN]
  | succ k ih =>
    intro m c h1 h2
    show stepN k (Counter.next { max := m, count := c }).2 = _
    rw [counter_next_state]
    simp only
    rw [wrap32_id (c + 1) (by omega) (by push_cast at h2; omega)]
    rw [ih m (c + 1) (by omega) (by push_cast at h2 ⊢; omega)]
    congr 1
    push_cast
    ring

/-- C6 counterexample: the claim "once a pull has returned exhaustion,
every subsequent pull also returns exhaustion, for any number of further
pulls" fails on the Counter cursor with max 10 in the state reached after
2147483648 pulls from Counter::new(10) (count 2147483646): that pull
returns exhaustion, yet the very next pull wraps the 32-bit count to
-2147483648 and yields it. -/
theorem C6_counterexample :
    (Counter.next { max := 10, count := 2147483646 }).1 = none ∧
    (Counter.next (stepN 0 (Counter.next { max := 10, count := 2147483646 }).2)).1 =
      some (-2147483648) ∧
    stepN 2147483647 (Counter.new 10) = { max := 10, count := 2147483646 } := by
  refine ⟨by decide, by decide, ?_⟩
  rw [Counter.new]
  rw [stepN_eq 2147483647 10 (-1) (by norm_num) (by norm_num)]
  simp only [Counter.mk.injEq]
  norm_num

/-- C6 amended: once a pull of the Counter has returned the exhaustion
signal, every subsequent pull also returns exhaustion as long as the
32-bit count does not overflow, that is for up to 2^31 - 1 - (count + 2)
further pulls beyond the first exhausted one; past that the count wraps
and the cursor may resume producing (see the counterexample). -/
theorem C6_exhaustion_persists_without_overflow (m c : Int) (k : Nat)
    (h1 : -2147483648 ≤ c) (h2 : c + 2 + k ≤ 2147483647)
    (h3 : (Counter.next { max := m, count := c }).1 = none) :
    (Counter.next (stepN k (Counter.next { max := m, count := c }).2)).1 = none := by
  have hw1 : wrap32 (c + 1) = c + 1 := wrap32_id _ (by omega) (by omega)
  have hm : ¬(c + 1 < m) := by
    intro hlt
    simp only [Counter.next, hw1] at h3
    rw [if_pos hlt] at h3
    exact Option.noConfusion h3
  have hstate : (Counter.next { max := m, count := c }).2 =
      { max := m, count := c + 1 } := by
    rw [counter_next_state]
    simp [hw1]
  rw [hstate, stepN_eq k m (c + 1) (by omega) (by omega)]
  have hw2 : wrap32 (c + 1 + k + 1) = c + 1 + k + 1 :=
    wrap32_id _ (by omega) (by omega)
  simp only [Counter.next, hw2]
  rw [if_neg (by omega)]

/-- Witness for the amended C6 at max 3, count 5, two further pulls. -/
theorem C6_exhaustion_persists_witness :
    (-2147483648 : Int) ≤ 5 ∧ (5 : Int) + 2 + (2 : Nat) ≤ 2147483647 ∧
    (Counter.next { max := 3, count := 5 }).1 = none ∧
    (Counter.next (stepN 2 (Counter.next { max := 3, count := 5 }).2)).1 = none :=
  ⟨by norm_num, by norm_num, by decide,
    C6_exhaustion_persists_without_overflow 3 5 2 (by norm_num) (by norm_num)
      (by decide)⟩

/-- The integer interval list has length n. -/
theorem intRange_length : ∀ (n : Nat) (c : Int), (intRange c n).length = n := by
  intro n
  induction n with
  | zero => intro c; rfl
  | succ n ih => intro c; simp [intRange, ih]

/-- Draining an in-range Counter state to exhaustion yields the interval
from count+1 up to max-1 and parks the count at max. -/
theorem counterRange :
    ∀ (n : Nat) (m c : Int), -2147483648 ≤ c → c ≤ m → m ≤ 2147483647 →
      m - c = n + 1 →
      drain Counter.next (n + 1) { max := m, count := c } =
        (intRange (c + 1) n, { max := m, count := m }) := by
  intro n
  induction n with
  | zero =>
    intro m c h1 h2 h3 h4
    have hw : wrap32 (c + 1) = c + 1 := wrap32_id _ (by omega) (by omega)
    have hnext : Counter.next { max := m, count := c } =
        (none, { max := m, count := c + 1 }) := by
      simp only [Counter.next, hw]
      rw [if_neg (by omega)]
    rw [drain_succ_none _ _ hnext]
    have hcm : c + 1 = m := by omega
    simp [intRange, hcm]
  | succ n ih =>
    intro m c h1 h2 h3 h4
    have hw : wrap32 (c + 1) = c + 1 := wrap32_id _ (by omega) (by omega)
    have hnext : Counter.next { max := m, count := c } =
        (some (c + 1), { max := m, count := c + 1 }) := by
      simp only [Counter.next, hw]
      rw [if_pos (by omega)]
    rw [drain_succ_some _ _ hnext]
    rw [ih m (c + 1) (by omega) (by omega) h3 (by push_cast at h4 ⊢; omega)]
    simp [intRange]

/-- The IntoIterator-based iterator pulls exactly like a Counter whose
fields are transposed: the two next bodies are the same code. -/
theorem iix_drain :
    ∀ (k : Nat) (m c : Int),
      drain IntoIterX.next k { count := c, max := m } =
        ((drain Counter.next k { max := m, count := c }).1,
          { count := (drain Counter.next k { max := m, count := c }).2.count,
            max := (drain Counter.next k { max := m, count := c }).2.max }) := by
  intro k
  induction k with
  | zero => intro m c; simp [drain]
  | succ k ih =>
    intro m c
    by_cases h : wrap32 (c + 1) < m
    · have h1 : IntoIterX.next { count := c, max := m } =
          (some (wrap32 (c + 1)), { count := wrap32 (c + 1), max := m }) := by
        simp only [IntoIterX.next]
        rw [if_pos h]
    
      have h2 : Counter.next { max := m, count := c } =
          (some (wrap32 (c + 1)), { max := m, count := wrap32 (c + 1) }) := by
        simp only [Counter.next]
        rw [if_pos h]
      rw [drain_succ_some _ _ h1, drain_succ_some _ _ h2, ih m (wrap32 (c + 1))]
    · have h1 : IntoIterX.next { count := c, max := m } =
          (none, { count := wrap32 (c + 1), max := m }) := by
        simp only [IntoIterX.next]
        rw [if_neg h]
      have h2 : Counter.next { max := m, count := c } =
          (none, { max := m, count := wrap32 (c + 1) }) := by
        simp only [Counter.next]
        rw [if_neg h]
      rw [drain_succ_none _ _ h1, drain_succ_none _ _ h2]

/-- C9: the two Counter variants are not extensionally equal: for every
max between 2 and 2^31 - 1, the Iterator-based Counter yields exactly
0, 1, ..., max-1 in increasing order, while the iterator of the
IntoIterator-based Counter yields exactly 1, 2, ..., max-1: one element
fewer, starting at 1 instead of 0. -/
theorem C9_counter_variants_differ (max : Int) (hlo : 2 ≤ max)
    (hhi : max ≤ 2147483647) :
    counterYield max = intRange 0 max.toNat ∧
    counterBYield max = intRange 1 (max.toNat - 1) ∧
    counterYield max = 0 :: counterBYield max ∧
    (counterYield max).length = (counterBYield max).length + 1 ∧
    counterYield max ≠ counterBYield max := by
  have hA : counterYield max = intRange 0 max.toNat := by
    rw [counterYield, Counter.new]
    rw [counterRange max.toNat max (-1) (by norm_num) (by omega) hhi (by omega)]
    norm_num
  have hB : counterBYield max = intRange 1 (max.toNat - 1) := by
    rw [counterBYield, CounterB.new, CounterB.into_iter]
    rw [iix_drain]
    obtain ⟨n, hn⟩ : ∃ n, max.toNat = n + 1 := ⟨max.toNat - 1, by omega⟩
    rw [hn]
    rw [counterRange n max 0 (by norm_num) (by omega) hhi (by omega)]
    have hn' : n = max.toNat - 1 := by omega
    rw [hn']
    norm_num
  refine ⟨hA, hB, ?_, ?_, ?_⟩
  · rw [hA, hB]
    obtain ⟨n, hn⟩ : ∃ n, max.toNat = n + 1 := ⟨max.toNat - 1, by omega⟩
    rw [hn]
    simp [intRange]
  · rw [hA, hB, intRange_length, intRange_length]
    omega
  · rw [hA, hB]
    intro hEq
    have hlen := congrArg List.length hEq
    rw [intRange_length, intRange_length] at hlen
    omega

/-- Witness for C9 at max 3: the first variant yields [0,1,2], the second
[1,2]. -/
theorem C9_counter_variants_witness :
    (2 : Int) ≤ 3 ∧
    (counterYield 3 = intRange 0 (3 : Int).toNat ∧
      counterBYield 3 = intRange 1 ((3 : Int).toNat - 1) ∧
      counterYield 3 = 0 :: counterBYield 3 ∧
      (counterYield 3).length = (counterBYield 3).length + 1 ∧
      counterYield 3 ≠ counterBYield 3) :=
  ⟨by norm_num, C9_counter_variants_differ 3 (by norm_num) (by norm_num)⟩

/-- A single pull of any adapter chain is deterministic: from one state,
the mapping and uniqueness pull code paths admit exactly one outcome. -/
theorem cstep_det {c : Chain} {s : CState c} {o₁ : Option Int × CState c}
    (h1 : CStep c s o₁) : ∀ o₂, CStep c s o₂ → o₁ = o₂ := by
  induction h1 with
  | base_some x xs =>
    intro o₂ h2
    cases h2
    rfl
  | base_none =>
    intro o₂ h2
    cases h2
    rfl
  | map_some h ih =>
    intro o₂ h2
    cases h2 with
    | map_some h' =>
      have hp := ih _ h'
      injection hp with hv hs
      injection hv with hv
      subst hv
      subst hs
      rfl
    | map_none h' =>
      have hp := ih _ h'
      injection hp with hv hs
      exact Option.noConfusion hv
  | map_none h ih =>
    intro o₂ h2
    cases h2 with
    | map_some h' =>
      have hp := ih _ h'
      injection hp with hv hs
      exact Option.noConfusion hv
    | map_none h' =>
      have hp := ih _ h'
      injection hp with hv hs
      subst hs
      rfl
  | uniq_new h hvn ih =>
    intro o₂ h2
    cases h2 with
    | uniq_new h' hvn' =>
      have hp := ih _ h'
      injection hp with hv hs
      injection hv with hv
      subst hv
      subst hs
      rfl
    | uniq_skip h' hvm' hrest' =>
      have hp := ih _ h'
      injection hp with hv hs
      injection hv with hv
      subst hv
      exact absurd hvm' hvn
    | uniq_none h' =>
      have hp := ih _ h'
      injection hp with hv hs
      exact Option.noConfusion hv
  | uniq_skip h hvm hrest ih ihrest =>
    intro o₂ h2
    cases h2 with
    | uniq_new h' hvn' =>
      have hp := ih _ h'
      injection hp with hv hs
      injection hv with hv
      subst hv
      exact absurd hvm hvn'
    | uniq_skip h' hvm' hrest' =>
      have hp := ih _ h'
      injection hp with hv hs
      injection hv with hv
      subst hv
      subst hs
      exact ihrest _ hrest'
    | uniq_none h' =>
      have hp := ih _ h'
      injection hp with hv hs
      exact Option.noConfusion hv
  | uniq_none h ih =>
    intro o₂ h2
    cases h2 with
    | uniq_new h' hvn' =>
      have hp := ih _ h'
      injection hp with hv hs
      exact Option.noConfusion hv
    | uniq_skip h' hvm' hrest' =>
      have hp := ih _ h'
      injection hp with hv hs
      exact Option.noConfusion hv
    | uniq_none h' =>
      have hp := ih _ h'
      injection hp with hv hs
      subst hs
      rfl

/-- C8: determinism of adapter chains built from the mapping and
uniqueness adapters over a non-randomized (list-backed) source: two runs
of the same chain from the same state pull exactly the same values in the
same order. -/
theorem C8_chain_determinism (c : Chain) (s : CState c)
    (vs₁ vs₂ : List Int) (h1 : CRun c s vs₁) (h2 : CRun c s vs₂) :
    vs₁ = vs₂ := by
  induction h1 generalizing vs₂ with
  | stop h =>
    cases h2 with
    | stop h' => rfl
    | step hst' hr' =>
      have hp := cstep_det h _ hst'
      injection hp with hv hs
      exact Option.noConfusion hv
  | step hst hr ih =>
    cases h2 with
    | stop h' =>
      have hp := cstep_det hst _ h'
      injection hp with hv hs
      exact Option.noConfusion hv
    | step hst' hr' =>
      have hp := cstep_det hst _ hst'
      injection hp with hv hs
      injection hv with hv
      subst hv
      subst hs
      rw [ih _ hr']

/-- Witness for C8: the chain map(double) over unique over the source
[1,1,2] runs to [2,4], and determinism applied to two such runs closes
the equality. -/
theorem C8_chain_determinism_witness :
    CRun (Chain.cmap (fun x => x * 2) (Chain.cuniq Chain.base))
      (([1, 1, 2], []) : List Int × List Int) [2, 4] ∧
    ([2, 4] : List Int) = [2, 4] := by
  have s1 : CStep (Chain.cuniq Chain.base)
      (([1, 1, 2], []) : List Int × List Int) (some 1, ([1, 2], [1])) :=
    CStep.uniq_new (CStep.base_some 1 [1, 2]) (by decide)
  have m1 : CStep (Chain.cmap (fun x => x * 2) (Chain.cuniq Chain.base))
      (([1, 1, 2], []) : List Int × List Int) (some 2, ([1, 2], [1])) :=
    CStep.map_some s1
  have s2 : CStep (Chain.cuniq Chain.base)
      (([1, 2], [1]) : List Int × List Int) (some 2, ([], [2, 1])) :=
    CStep.uniq_skip (CStep.base_some 1 [2]) (by decide)
      (CStep.uniq_new (CStep.base_some 2 []) (by decide))
  have m2 : CStep (Chain.cmap (fun x => x * 2) (Chain.cuniq Chain.base))
      (([1, 2], [1]) : List Int × List Int) (some 4, ([], [2, 1])) :=
    CStep.map_some s2
  have m3 : CStep (Chain.cmap (fun x => x * 2) (Chain.cuniq Chain.base))
      (([], [2, 1]) : List Int × List Int) (none, ([], [2, 1])) :=
    CStep.map_none (CStep.uniq_none CStep.base_none)
  have run : CRun (Chain.cmap (fun x => x * 2) (Chain.cuniq Chain.base))
      (([1, 1, 2], []) : List Int × List Int) [2, 4] :=
    CRun.step m1 (CRun.step m2 (CRun.stop m3))
  exact ⟨run, C8_chain_determinism _ _ _ _ run run⟩
